import Mathlib

/-!
Verification of the renter-side chunk scheduler of the Sia repository.

This file gives a shallow embedding, in Lean 4, of the data structures and
operations of the renter's upload heap, download worker pipeline, repair
loop, chunk builder and download planner, translated from the Go source
(modules/renter/uploadheap.go, workerdownload.go, download.go,
siafile/snapshot.go), and proves or refutes the specification claims about
them.

Machine integers (Go `int`, `uint64`) are modelled as `Nat`/`Int`; the
quantities involved (piece counts, offsets) never approach overflow in the
claims considered.  Go `float64` arithmetic (`CachedHealth`, the heap's
completion ratio) is modelled with `ℚ`; for the small integral values used
in every statement below the `float64` results are exact, so the rational
model agrees with the source.  Maps (`map[uploadChunkID]struct{}`) are
modelled as `Finset`, slices as `List`.
-/

namespace SiaRenter

/-- Go type `uploadChunkID` (uploadheap.go): `{fileUID string; index uint64}`. -/
structure UploadChunkID where
  fileUID : String
  index : Nat
  deriving DecidableEq, Repr

/-- The fields of Go's `unfinishedUploadChunk` used by the upload heap and
the chunk builder.  `pieceUsage` and `unusedHosts` are the mutable
bookkeeping of `buildUnfinishedChunks`; the heap order only reads `stuck`,
`piecesCompleted` and `piecesNeeded`. -/
structure UnfinishedUploadChunk where
  id : UploadChunkID
  stuck : Bool
  stuckRepair : Bool
  piecesCompleted : Nat
  piecesNeeded : Nat
  minimumPieces : Nat
  pieceUsage : List Bool
  unusedHosts : List String
  deriving DecidableEq, Repr

/-- Completion ratio `float64(piecesCompleted)/float64(piecesNeeded)` of
`uploadChunkHeap.Less`, modelled over `ℚ` (written with `mkRat` so the
comparison is kernel-computable; `completionRatio_eq_div` shows it is the
rational division of the two counters). -/
def completionRatio (c : UnfinishedUploadChunk) : ℚ :=
  mkRat c.piecesCompleted c.piecesNeeded

theorem completionRatio_eq_div (c : UnfinishedUploadChunk) :
    completionRatio c = (c.piecesCompleted : ℚ) / (c.piecesNeeded : ℚ) := by
  unfold completionRatio
  rw [Rat.mkRat_eq_div]
  norm_num

/-- Go `uploadChunkHeap.Less` (uploadheap.go lines 62-79): stuck chunks
first; within a class, lower completion ratio first. -/
def uploadChunkLess (a b : UnfinishedUploadChunk) : Bool :=
  if a.stuck && b.stuck then decide (completionRatio a < completionRatio b)
  else if a.stuck then true
  else if b.stuck then false
  else decide (completionRatio a < completionRatio b)

/-- Go `uploadChunkHeap.Swap` as used by `container/heap`: exchange the
elements at positions `i` and `j`.  `container/heap` only ever calls it
with in-range indices; out-of-range calls are modelled as the identity. -/
def heapSwap {α : Type} (l : List α) (i j : Nat) : List α :=
  if h : i < l.length ∧ j < l.length then
    (l.set i (l.get ⟨j, h.2⟩)).set j (l.get ⟨i, h.1⟩)
  else l

/-- Go `container/heap.up`: sift the element at position `j` towards the
root while it is less than its parent.  `fuel` bounds the recursion; any
`fuel > j` computes the fixpoint since the index strictly decreases. -/
def heapUp {α : Type} (less : α → α → Bool) : Nat → List α → Nat → List α
  | 0, l, _ => l
  | fuel + 1, l, j =>
    let i := (j - 1) / 2
    if i = j then l
    else
      match l[j]?, l[i]? with
      | some xj, some xi =>
        if less xj xi then heapUp less fuel (heapSwap l i j) i else l
      | _, _ => l

/-- The child-selection step of Go `container/heap.down`: pick the smaller
of the two children of position `i`, restricted to the first `n`
positions. -/
def heapDownChild {α : Type} (less : α → α → Bool) (l : List α) (i n : Nat) : Nat :=
  let j1 := 2 * i + 1
  if j1 + 1 < n then
    match l[j1 + 1]?, l[j1]? with
    | some x2, some x1 => if less x2 x1 then j1 + 1 else j1
    | _, _ => j1
  else j1

/-- Go `container/heap.down` restricted to the first `n` positions: sift
the element at position `i` towards the leaves. -/
def heapDown {α : Type} (less : α → α → Bool) : Nat → List α → Nat → Nat → List α
  | 0, l, _, _ => l
  | fuel + 1, l, i, n =>
    if n ≤ 2 * i + 1 then l
    else
      let j := heapDownChild less l i n
      match l[j]?, l[i]? with
      | some xj, some xi =>
        if less xj xi then heapDown less fuel (heapSwap l i j) j n else l
      | _, _ => l

/-- Go `heap.Push`: append the new element and sift it up. -/
def heapPush {α : Type} (less : α → α → Bool) (l : List α) (x : α) : List α :=
  heapUp less (l.length + 1) (l ++ [x]) l.length

/-- Go `heap.Pop`: swap the root to the last position, sift the new root
down within the first `n-1` positions, then remove and return the last
element (the old root). -/
def heapPop {α : Type} (less : α → α → Bool) (l : List α) : Option α × List α :=
  if l.isEmpty then (none, l)
  else
    let n := l.length - 1
    let l2 := heapDown less l.length (heapSwap l 0 n) 0 n
    (l2.getLast?, l2.dropLast)

/-- The state of Go's `uploadHeap` (uploadheap.go): the priority-sorted
slice plus the two id sets `heapChunks` and `repairingChunks`. -/
structure UploadHeapState where
  heap : List UnfinishedUploadChunk
  heapChunks : Finset UploadChunkID
  repairingChunks : Finset UploadChunkID
  deriving DecidableEq

/-- The freshly initialized upload heap: empty slice, empty id sets. -/
def emptyUploadHeap : UploadHeapState := ⟨[], ∅, ∅⟩

/-- Go `uploadHeap.managedPush` (uploadheap.go lines 97-109): reject a
chunk whose id is in `heapChunks` or `repairingChunks`; otherwise record
the id in `heapChunks` and push the chunk onto the heap. -/
def managedPush (uh : UploadHeapState) (uuc : UnfinishedUploadChunk) : UploadHeapState :=
  if uuc.id ∈ uh.heapChunks ∨ uuc.id ∈ uh.repairingChunks then uh
  else
    { uh with
      heapChunks := insert uuc.id uh.heapChunks
      heap := heapPush uploadChunkLess uh.heap uuc }

/-- Go `uploadHeap.managedPop` (uploadheap.go lines 111-120): if the heap
is non-empty, pop the head chunk and delete its id from `heapChunks`;
otherwise return `nil`.  Note: the source does not touch
`repairingChunks`. -/
def managedPop (uh : UploadHeapState) : Option UnfinishedUploadChunk × UploadHeapState :=
  if uh.heap.isEmpty then (none, uh)
  else
    match heapPop uploadChunkLess uh.heap with
    | (some uc, rest) =>
      (some uc, { uh with heap := rest, heapChunks := uh.heapChunks.erase uc.id })
    | (none, _) => (none, uh)

/-! ### Support lemmas about `container/heap` -/

theorem heapSwap_length {α : Type} (l : List α) (i j : Nat) :
    (heapSwap l i j).length = l.length := by
  unfold heapSwap
  split <;> simp

theorem heapSwap_perm {α : Type} [DecidableEq α] (l : List α) (i j : Nat) :
    (heapSwap l i j).Perm l := by
  unfold heapSwap
  split
  case isFalse => exact List.Perm.refl l
  case isTrue h =>
    obtain ⟨hi, hj⟩ := h
    rw [List.perm_iff_count]
    intro b
    have hjj : j < (l.set i (l.get ⟨j, hj⟩)).length := by simpa using hj
    rw [List.count_set _ b _ j hjj, List.count_set _ b l i hi]
    have hget : (l.set i (l.get ⟨j, hj⟩))[j] = l.get ⟨j, hj⟩ := by
      by_cases hij : i = j
      · subst hij
        exact List.getElem_set_self _
      · rw [List.getElem_set_ne hij]
        simp [List.get_eq_getElem]
    rw [hget]
    have hmemi : l[i] ∈ l := List.getElem_mem hi
    have hmemj : l.get ⟨j, hj⟩ ∈ l := List.get_mem l j hj
    by_cases h1 : l[i] = b
    · have hc : 1 ≤ List.count b l := List.count_pos_iff.mpr (h1 ▸ hmemi)
      by_cases h2 : l.get ⟨j, hj⟩ = b <;> simp [h1, h2] <;> omega
    · by_cases h2 : l.get ⟨j, hj⟩ = b
      · simp [h1, h2]
      · simp [h1, h2]

theorem heapSwap_getElem?_ne {α : Type} (l : List α) (i j k : Nat)
    (hki : k ≠ i) (hkj : k ≠ j) : (heapSwap l i j)[k]? = l[k]? := by
  unfold heapSwap
  split
  · rw [List.getElem?_set_ne hkj.symm, List.getElem?_set_ne hki.symm]
  · rfl

theorem heapSwap_getElem?_right {α : Type} (l : List α) (i j : Nat)
    (hi : i < l.length) (hj : j < l.length) :
    (heapSwap l i j)[j]? = l[i]? := by
  unfold heapSwap
  rw [dif_pos ⟨hi, hj⟩]
  have hj2 : j < ((l.set i (l.get ⟨j, hj⟩)).set j (l.get ⟨i, hi⟩)).length := by
    simpa using hj
  rw [List.getElem?_eq_getElem hj2, List.getElem?_eq_getElem hi]
  simp [List.getElem_set_self, List.get_eq_getElem]

theorem heapDownChild_lt {α : Type} (less : α → α → Bool) (l : List α) {i n : Nat}
    (h : 2 * i + 1 < n) : heapDownChild less l i n < n := by
  unfold heapDownChild
  dsimp only
  split
  · split
    · split <;> omega
    · omega
  · omega

theorem heapUp_length {α : Type} (less : α → α → Bool) :
    ∀ (fuel : Nat) (l : List α) (j : Nat), (heapUp less fuel l j).length = l.length := by
  intro fuel
  induction fuel with
  | zero => intro l j; rfl
  | succ fuel ih =>
    intro l j
    unfold heapUp
    dsimp only
    split
    · rfl
    · split
      · split
        · rw [ih, heapSwap_length]
        · rfl
      · rfl

theorem heapUp_perm {α : Type} [DecidableEq α] (less : α → α → Bool) :
    ∀ (fuel : Nat) (l : List α) (j : Nat), (heapUp less fuel l j).Perm l := by
  intro fuel
  induction fuel with
  | zero => intro l j; exact List.Perm.refl l
  | succ fuel ih =>
    intro l j
    unfold heapUp
    dsimp only
    split
    · exact List.Perm.refl l
    · split
      · split
        · exact (ih _ _).trans (heapSwap_perm _ _ _)
        · exact List.Perm.refl l
      · exact List.Perm.refl l

theorem heapDown_length {α : Type} (less : α → α → Bool) :
    ∀ (fuel : Nat) (l : List α) (i n : Nat), (heapDown less fuel l i n).length = l.length := by
  intro fuel
  induction fuel with
  | zero => intro l i n; rfl
  | succ fuel ih =>
    intro l i n
    unfold heapDown
    dsimp only
    split
    · rfl
    · split
      · split
        · rw [ih, heapSwap_length]
        · rfl
      · rfl

theorem heapDown_perm {α : Type} [DecidableEq α] (less : α → α → Bool) :
    ∀ (fuel : Nat) (l : List α) (i n : Nat), (heapDown less fuel l i n).Perm l := by
  intro fuel
  induction fuel with
  | zero => intro l i n; exact List.Perm.refl l
  | succ fuel ih =>
    intro l i n
    unfold heapDown
    dsimp only
    split
    · exact List.Perm.refl l
    · split
      · split
        · exact (ih _ _ _).trans (heapSwap_perm _ _ _)
        · exact List.Perm.refl l
      · exact List.Perm.refl l

theorem heapDown_getElem?_ge {α : Type} (less : α → α → Bool) :
    ∀ (fuel : Nat) (l : List α) (i n k : Nat), n ≤ k →
      (heapDown less fuel l i n)[k]? = l[k]? := by
  intro fuel
  induction fuel with
  | zero => intro l i n k _; rfl
  | succ fuel ih =>
    intro l i n k hk
    unfold heapDown
    dsimp only
    split
    · rfl
    · case isFalse hj1 =>
      have hchild := heapDownChild_lt less l (i := i) (n := n) (by omega)
      split
      · split
        · rw [ih _ _ _ _ hk]
          apply heapSwap_getElem?_ne <;> omega
        · rfl
      · rfl

theorem heapPush_perm {α : Type} [DecidableEq α] (less : α → α → Bool) (l : List α) (x : α) :
    (heapPush less l x).Perm (x :: l) := by
  unfold heapPush
  exact (heapUp_perm less _ _ _).trans List.perm_append_comm

theorem heapPop_spec {α : Type} [DecidableEq α] (less : α → α → Bool) (l : List α)
    (h : 0 < l.length) :
    (heapPop less l).1 = some (l.get ⟨0, h⟩) ∧
      ((heapPop less l).2 ++ [l.get ⟨0, h⟩]).Perm l := by
  have hne : l ≠ [] := by
    intro hc
    rw [hc] at h
    simp at h
  unfold heapPop
  rw [if_neg (by simpa [List.isEmpty_iff] using hne)]
  dsimp only
  set n := l.length - 1 with hn
  set l2 := heapDown less l.length (heapSwap l 0 n) 0 n with hl2
  have hlen2 : l2.length = l.length := by
    rw [hl2, heapDown_length, heapSwap_length]
  have hl2ne : l2 ≠ [] := by
    intro hc
    rw [hc] at hlen2
    simp at hlen2
    omega
  have hlast : l2[n]? = l[0]? := by
    rw [hl2, heapDown_getElem?_ge less _ _ _ _ _ (Nat.le_refl n)]
    exact heapSwap_getElem?_right l 0 n h (by omega)
  have hlast' : l2.getLast? = l[0]? := by
    rw [List.getLast?_eq_getElem?, hlen2]
    exact hlast
  have hget0 : l[0]? = some (l.get ⟨0, h⟩) := by
    simp [List.getElem?_eq_getElem h, List.get_eq_getElem]
  constructor
  · rw [hlast', hget0]
  · have hgl : l2.getLast hl2ne = l.get ⟨0, h⟩ := by
      have hql := List.getLast?_eq_getLast l2 hl2ne
      rw [hql, hget0] at hlast'
      exact Option.some_injective _ hlast'
    have hsplit : l2.dropLast ++ [l2.getLast hl2ne] = l2 :=
      List.dropLast_append_getLast hl2ne
    rw [← hgl, hsplit]
    exact (heapDown_perm less _ _ _ _).trans (heapSwap_perm _ _ _)

/-! ### The upload heap operations and their id sets -/

/-- The ids of the chunks currently stored in the heap slice. -/
def heapIds (s : UploadHeapState) : List UploadChunkID :=
  s.heap.map (fun c => c.id)

/-- One client call against the upload heap: `managedPush` or `managedPop`. -/
inductive HeapOp where
  | push (uuc : UnfinishedUploadChunk)
  | pop

/-- Apply one heap operation (the state effect; `managedPop`'s return value
is dropped). -/
def heapOpApply (s : UploadHeapState) : HeapOp → UploadHeapState
  | .push uuc => managedPush s uuc
  | .pop => (managedPop s).2

/-- Run a sequence of push/pop operations against the upload heap. -/
def runHeapOps (s : UploadHeapState) : List HeapOp → UploadHeapState
  | [] => s
  | op :: ops => runHeapOps (heapOpApply s op) ops

/-- Consistency of the heap slice with the `heapChunks` id set: no id is in
the slice twice, and `heapChunks` contains exactly the ids in the slice. -/
def uploadHeapInv (s : UploadHeapState) : Prop :=
  (heapIds s).Nodup ∧ ∀ i : UploadChunkID, i ∈ s.heapChunks ↔ i ∈ heapIds s

theorem uploadHeapInv_push (s : UploadHeapState) (uuc : UnfinishedUploadChunk)
    (h : uploadHeapInv s) : uploadHeapInv (managedPush s uuc) := by
  obtain ⟨hnd, hmem⟩ := h
  unfold managedPush
  split
  · exact ⟨hnd, hmem⟩
  · case isFalse hrej =>
    have hnotin : uuc.id ∉ heapIds s := fun hc => hrej (Or.inl ((hmem uuc.id).mpr hc))
    have hperm : (heapIds { s with
        heapChunks := insert uuc.id s.heapChunks
        heap := heapPush uploadChunkLess s.heap uuc }).Perm (uuc.id :: heapIds s) := by
      simpa [heapIds] using (heapPush_perm uploadChunkLess s.heap uuc).map (fun c => c.id)
    constructor
    · exact hperm.nodup_iff.mpr (List.nodup_cons.mpr ⟨hnotin, hnd⟩)
    · intro i
      rw [hperm.mem_iff]
      simp only [Finset.mem_insert, List.mem_cons]
      rw [hmem i]

theorem uploadHeapInv_pop (s : UploadHeapState)
    (h : uploadHeapInv s) : uploadHeapInv (managedPop s).2 := by
  obtain ⟨hnd, hmem⟩ := h
  unfold managedPop
  split
  · exact ⟨hnd, hmem⟩
  · case isFalse hne =>
    have hlen : 0 < s.heap.length := by
      cases hh : s.heap with
      | nil => rw [hh] at hne; simp at hne
      | cons a t => simp [hh]
    have hspec := heapPop_spec uploadChunkLess s.heap hlen
    set root := s.heap.get ⟨0, hlen⟩ with hroot
    rcases hp : heapPop uploadChunkLess s.heap with ⟨fst, snd⟩
    rw [hp] at hspec
    obtain ⟨hfst, hperm⟩ := hspec
    simp only at hfst hperm
    subst hfst
    simp only
    have hpermIds : ((snd.map fun c => c.id) ++ [root.id]).Perm (heapIds s) := by
      simpa [heapIds] using hperm.map (fun c => c.id)
    have hndApp : ((snd.map fun c => c.id) ++ [root.id]).Nodup :=
      hpermIds.nodup_iff.mpr hnd
    have hrootNotin : root.id ∉ snd.map fun c => c.id := by
      have := (List.nodup_append.mp hndApp).2.2
      intro hc
      exact this hc (by simp)
    constructor
    · exact (List.nodup_append.mp hndApp).1
    · intro i
      simp only [heapIds, Finset.mem_erase]
      constructor
      · rintro ⟨hne', hin⟩
        have hin' := (hmem i).mp hin
        have := hpermIds.mem_iff.mpr hin'
        simp only [List.mem_append, List.mem_singleton] at this
        rcases this with hl | hr
        · exact hl
        · exact absurd hr hne'
      · intro hin
        refine ⟨fun hc => hrootNotin (hc ▸ hin), ?_⟩
        exact (hmem i).mpr (hpermIds.mem_iff.mp (by simp [hin]))

theorem uploadHeapInv_run (s : UploadHeapState) (ops : List HeapOp)
    (h : uploadHeapInv s) : uploadHeapInv (runHeapOps s ops) := by
  induction ops generalizing s with
  | nil => exact h
  | cons op ops ih =>
    refine ih _ ?_
    cases op with
    | push uuc => exact uploadHeapInv_push s uuc h
    | pop => exact uploadHeapInv_pop s h

/-- A concrete `unfinishedUploadChunk` with the given id, stuck flag and
completion counters (the remaining fields are irrelevant to the heap). -/
def mkChunk (uid : String) (index : Nat) (stuck : Bool) (pc pn : Nat) :
    UnfinishedUploadChunk :=
  { id := { fileUID := uid, index := index }
    stuck := stuck
    stuckRepair := false
    piecesCompleted := pc
    piecesNeeded := pn
    minimumPieces := 1
    pieceUsage := []
    unusedHosts := [] }

/-- A one-chunk demonstration state: the empty upload heap after pushing a
single chunk. -/
def popDemoChunk : UnfinishedUploadChunk := mkChunk "a" 0 false 0 1

def popDemoState : UploadHeapState := managedPush emptyUploadHeap popDemoChunk

/-- C1 counterexample: popping the single chunk off a one-chunk heap does
NOT move its id into `repairingChunks` (`managedPop` only deletes from
`heapChunks`; nothing in this version of the source ever inserts into
`repairingChunks`), and the popped-but-unfinalized chunk can immediately
be pushed again. -/
theorem managedPop_no_repairing_transfer :
    (managedPop popDemoState).1 = some popDemoChunk ∧
    popDemoChunk.id ∉ (managedPop popDemoState).2.repairingChunks ∧
    (managedPush (managedPop popDemoState).2 popDemoChunk).heap = [popDemoChunk] := by
  decide

/-- C1 (amended): `managedPop` on a non-empty heap returns the head chunk
and removes its id from `heapChunks`, leaving `repairingChunks` unchanged
(the id is not moved into it); on an empty heap it returns `nil` and
leaves the state unchanged. -/
theorem managedPop_contract (s : UploadHeapState) (h : 0 < s.heap.length) :
    (managedPop s).1 = some (s.heap.get ⟨0, h⟩) ∧
    (managedPop s).2.heapChunks = s.heapChunks.erase (s.heap.get ⟨0, h⟩).id ∧
    (managedPop s).2.repairingChunks = s.repairingChunks ∧
    ((managedPop s).2.heap ++ [s.heap.get ⟨0, h⟩]).Perm s.heap ∧
    (∀ t : UploadHeapState, t.heap = [] → managedPop t = (none, t)) := by
  have hne : ¬s.heap.isEmpty = true := by
    cases hh : s.heap with
    | nil => rw [hh] at h; simp at h
    | cons a t => simp [hh]
  have hempty : ∀ t : UploadHeapState, t.heap = [] → managedPop t = (none, t) := by
    intro t ht
    unfold managedPop
    rw [if_pos (by simp [ht])]
  have hspec := heapPop_spec uploadChunkLess s.heap h
  unfold managedPop
  rw [if_neg hne]
  rcases hp : heapPop uploadChunkLess s.heap with ⟨fst, snd⟩
  rw [hp] at hspec
  obtain ⟨hfst, hperm⟩ := hspec
  simp only at hfst hperm
  subst hfst
  exact ⟨rfl, rfl, rfl, hperm, hempty⟩

/-- Witness for `managedPop_contract` at the concrete one-chunk state. -/
theorem managedPop_contract_witness :
    (managedPop popDemoState).1 = some (popDemoState.heap.get ⟨0, by decide⟩) ∧
    (managedPop popDemoState).2.heapChunks =
      popDemoState.heapChunks.erase (popDemoState.heap.get ⟨0, by decide⟩).id ∧
    (managedPop popDemoState).2.repairingChunks = popDemoState.repairingChunks ∧
    ((managedPop popDemoState).2.heap ++
      [popDemoState.heap.get ⟨0, by decide⟩]).Perm popDemoState.heap ∧
    (∀ t : UploadHeapState, t.heap = [] → managedPop t = (none, t)) :=
  managedPop_contract popDemoState (by decide)

/-- C6: the push contract — a chunk id present in `heapChunks` or
`repairingChunks` is rejected (state unchanged); otherwise the chunk is
inserted and its id recorded — and, as a consequence, along every
push/pop sequence from the empty heap, no chunk id is ever present twice
in the heap at once. -/
theorem managedPush_contract_and_no_duplicate_ids :
    (∀ (s : UploadHeapState) (uuc : UnfinishedUploadChunk),
      uuc.id ∈ s.heapChunks ∨ uuc.id ∈ s.repairingChunks → managedPush s uuc = s) ∧
    (∀ (s : UploadHeapState) (uuc : UnfinishedUploadChunk),
      uuc.id ∉ s.heapChunks → uuc.id ∉ s.repairingChunks →
      (managedPush s uuc).heapChunks = insert uuc.id s.heapChunks ∧
      (managedPush s uuc).repairingChunks = s.repairingChunks ∧
      ((managedPush s uuc).heap).Perm (uuc :: s.heap)) ∧
    (∀ ops : List HeapOp, (heapIds (runHeapOps emptyUploadHeap ops)).Nodup) := by
  refine ⟨?_, ?_, ?_⟩
  · intro s uuc h
    unfold managedPush
    rw [if_pos h]
  · intro s uuc h1 h2
    unfold managedPush
    rw [if_neg (by tauto)]
    exact ⟨rfl, rfl, heapPush_perm _ _ _⟩
  · intro ops
    have hinv : uploadHeapInv emptyUploadHeap := by
      constructor
      · simp [heapIds, emptyUploadHeap]
      · intro i
        simp [heapIds, emptyUploadHeap]
    exact (uploadHeapInv_run _ ops hinv).1

/-- Witness for `managedPush_contract_and_no_duplicate_ids`: re-pushing
the chunk already recorded in the one-chunk state is rejected. -/
theorem managedPush_contract_witness :
    managedPush popDemoState popDemoChunk = popDemoState :=
  managedPush_contract_and_no_duplicate_ids.1 popDemoState popDemoChunk (Or.inl (by decide))

/-- The four chunks of scenario S6: stuck/unstuck with completion ratios
1/1 and 2/1. -/
def s6stuck1 : UnfinishedUploadChunk := mkChunk "stuck" 1 true 1 1

def s6stuck2 : UnfinishedUploadChunk := mkChunk "stuck" 2 true 2 1

def s6unstuck1 : UnfinishedUploadChunk := mkChunk "unstuck" 1 false 1 1

def s6unstuck2 : UnfinishedUploadChunk := mkChunk "unstuck" 2 false 2 1

/-- The empty upload heap after pushing the four S6 chunks. -/
def s6state : UploadHeapState :=
  managedPush
    (managedPush (managedPush (managedPush emptyUploadHeap s6stuck1) s6stuck2) s6unstuck1)
    s6unstuck2

/-- C5: the heap order places stuck chunks strictly before non-stuck ones;
within a class, lower `piecesCompleted/piecesNeeded` ratio first (the
order is a pure function of the chunks, hence deterministic); and the S6
scenario — pushing (stuck,1/1), (stuck,2/1), (unstuck,1/1), (unstuck,2/1)
into the empty heap and popping four times — yields exactly that order. -/
theorem uploadChunkHeap_order :
    (∀ a b : UnfinishedUploadChunk, a.stuck = true → b.stuck = false →
      uploadChunkLess a b = true ∧ uploadChunkLess b a = false) ∧
    (∀ a b : UnfinishedUploadChunk, a.stuck = b.stuck →
      (uploadChunkLess a b = true ↔ completionRatio a < completionRatio b)) ∧
    ((managedPop s6state).1 = some s6stuck1 ∧
      (managedPop (managedPop s6state).2).1 = some s6stuck2 ∧
      (managedPop (managedPop (managedPop s6state).2).2).1 = some s6unstuck1 ∧
      (managedPop (managedPop (managedPop (managedPop s6state).2).2).2).1 =
        some s6unstuck2) := by
  refine ⟨?_, ?_, ?_⟩
  · intro a b ha hb
    unfold uploadChunkLess
    rw [ha, hb]
    simp
  · intro a b hab
    unfold uploadChunkLess
    cases hb : b.stuck
    · rw [hab, hb]
      simp
    · rw [hab, hb]
      simp
  · decide

/-- Witness for `uploadChunkHeap_order` at two concrete S6 chunks. -/
theorem uploadChunkHeap_order_witness :
    uploadChunkLess s6stuck1 s6unstuck1 = true ∧
    uploadChunkLess s6unstuck1 s6stuck1 = false :=
  uploadChunkHeap_order.1 s6stuck1 s6unstuck1 rfl rfl

/-! ### Download chunks and the worker pipeline (workerdownload.go) -/

/-- The per-worker inputs of `ownedProcessDownloadChunk`: the worker's
host public key (worker identity) and the result of
`ownedOnDownloadCooldown` (a wall-clock comparison, modelled as a Bool
input). -/
structure WorkerModel where
  hostKey : String
  onDownloadCooldown : Bool
  deriving DecidableEq

/-- The immutable parameters of an `unfinishedDownloadChunk`:
`erasureCode.MinPieces()`, `staticOverdrive`, and `staticChunkMap` (host
public key → piece index; the Merkle root is irrelevant here). -/
structure DownloadChunkParams where
  minPieces : Nat
  staticOverdrive : Nat
  staticChunkMap : List (String × Nat)
  deriving DecidableEq

/-- The mutable state of Go's `unfinishedDownloadChunk` (the fields read
and written by `ownedProcessDownloadChunk`, `managedDownload`,
`managedUnregisterWorker` and `managedRemoveWorker`), together with the
observable `recoveryLaunches` counting how many recovery tasks have been
spawned.  `downloadComplete` is `udc.download.staticComplete()`. -/
structure UnfinishedDownloadChunk where
  piecesRegistered : Int
  piecesCompleted : Nat
  completedPieces : List Bool
  pieceUsage : List Bool
  workersRemaining : Int
  workersStandby : List String
  recoveryLaunches : Nat
  downloadComplete : Bool
  deriving DecidableEq

/-- Modelled from the spec: the body of `managedRemoveWorker` is not under
src/ (only its call sites in workerdownload.go are).  Per §5 "Ordering
guarantees": "workers_remaining is decremented exactly once per worker
that received the chunk, whether it completed, failed, or dropped". -/
def managedRemoveWorker (udc : UnfinishedDownloadChunk) : UnfinishedDownloadChunk :=
  { udc with workersRemaining := udc.workersRemaining - 1 }

/-- Modelled from the spec: the body of `markPieceCompleted` is not under
src/ (only its call in `managedDownload` is).  Per §4.D: "reacquire the
lock, increment pieces_completed" — it marks `completed_pieces[i]` and
increments the counter. -/
def markPieceCompleted (udc : UnfinishedDownloadChunk) (pieceIndex : Nat) :
    UnfinishedDownloadChunk :=
  { udc with
    completedPieces := udc.completedPieces.set pieceIndex true
    piecesCompleted := udc.piecesCompleted + 1 }

/-- Go `unfinishedDownloadChunk.managedUnregisterWorker` (workerdownload.go
lines 559-564): decrement `piecesRegistered`, clear the worker's
`pieceUsage` slot. -/
def managedUnregisterWorker (p : DownloadChunkParams) (w : WorkerModel)
    (udc : UnfinishedDownloadChunk) : UnfinishedDownloadChunk :=
  { udc with
    piecesRegistered := udc.piecesRegistered - 1
    pieceUsage := udc.pieceUsage.set ((p.staticChunkMap.lookup w.hostKey).getD 0) false }

/-- Go `worker.ownedProcessDownloadChunk` (workerdownload.go lines
582-654).  Returns the updated chunk state and whether the chunk was
returned to the worker (`true`) or `nil` (`false`).  When the worker has
no piece, `pieceData` is the zero value (piece index 0), exactly as the Go
map lookup yields; `meetsExtraCriteria` is constant `true` in the source
and is omitted from the conjunction. -/
def ownedProcessDownloadChunk (p : DownloadChunkParams) (w : WorkerModel)
    (udc : UnfinishedDownloadChunk) : UnfinishedDownloadChunk × Bool :=
  let chunkComplete := p.minPieces ≤ udc.piecesCompleted ∨ udc.downloadComplete = true
  let chunkFailed := (udc.piecesCompleted : Int) + udc.workersRemaining < (p.minPieces : Int)
  let lookupW := p.staticChunkMap.lookup w.hostKey
  let pieceIndex := lookupW.getD 0
  let pieceCompleted := udc.completedPieces.getD pieceIndex false
  if chunkComplete ∨ chunkFailed ∨ w.onDownloadCooldown = true ∨ lookupW = none ∨
      pieceCompleted = true then
    (managedRemoveWorker udc, false)
  else
    let pieceTaken := udc.pieceUsage.getD pieceIndex false
    let piecesInProgress := udc.piecesRegistered + (udc.piecesCompleted : Int)
    let desiredPiecesInProgress := (p.minPieces : Int) + (p.staticOverdrive : Int)
    if piecesInProgress < desiredPiecesInProgress ∧ pieceTaken = false then
      ({ udc with
          piecesRegistered := udc.piecesRegistered + 1
          pieceUsage := udc.pieceUsage.set pieceIndex true }, true)
    else
      ({ udc with workersStandby := udc.workersStandby ++ [w.hostKey] }, false)

/-- The completion section of `worker.managedDownload` (workerdownload.go
lines 470-494) after a successful fetch and decrypt, plus the deferred
`managedRemoveWorker` that runs when `managedDownload` returns: mark the
piece completed, decrement `piecesRegistered`, and spawn the recovery
task (count it in `recoveryLaunches`) exactly when `piecesCompleted`
reaches `MinPieces`.  `tgAddOk` is false only when `renter.tg.Add()`
fails (shutdown), in which case the source returns without spawning.
The `atomicDataReceived` progress accounting and the `physicalChunkData`
buffer assignment of those lines are not observable to the claims and are
omitted. -/
def managedDownloadCompletePiece (p : DownloadChunkParams) (pieceIndex : Nat)
    (tgAddOk : Bool) (udc : UnfinishedDownloadChunk) : UnfinishedDownloadChunk :=
  let udc1 := markPieceCompleted udc pieceIndex
  let udc2 := { udc1 with piecesRegistered := udc1.piecesRegistered - 1 }
  let udc3 :=
    if udc2.piecesCompleted = p.minPieces then
      if tgAddOk then { udc2 with recoveryLaunches := udc2.recoveryLaunches + 1 } else udc2
    else udc2
  managedRemoveWorker udc3

/-- The failure path of `worker.managedDownload`: `managedUnregisterWorker`
followed by the deferred `managedRemoveWorker`. -/
def managedDownloadFailPiece (p : DownloadChunkParams) (w : WorkerModel)
    (udc : UnfinishedDownloadChunk) : UnfinishedDownloadChunk :=
  managedRemoveWorker (managedUnregisterWorker p w udc)

/-- One worker-side operation on a download chunk: process (register /
standby / drop), complete a fetched piece, or unregister on failure. -/
inductive DownloadWorkerOp where
  | process (w : WorkerModel)
  | complete (pieceIndex : Nat) (tgAddOk : Bool)
  | fail (w : WorkerModel)

def downloadWorkerOpApply (p : DownloadChunkParams) (udc : UnfinishedDownloadChunk) :
    DownloadWorkerOp → UnfinishedDownloadChunk
  | .process w => (ownedProcessDownloadChunk p w udc).1
  | .complete i ok => managedDownloadCompletePiece p i ok udc
  | .fail w => managedDownloadFailPiece p w udc

def runDownloadWorkerOps (p : DownloadChunkParams) (udc : UnfinishedDownloadChunk) :
    List DownloadWorkerOp → UnfinishedDownloadChunk
  | [] => udc
  | op :: ops => runDownloadWorkerOps p (downloadWorkerOpApply p udc op) ops

/-- A fresh `unfinishedDownloadChunk` as built by `managedNewDownload`:
no piece completed or registered, no recovery task spawned yet. -/
def initUDC (numPieces : Nat) (workersRemaining : Int) : UnfinishedDownloadChunk :=
  { piecesRegistered := 0
    piecesCompleted := 0
    completedPieces := List.replicate numPieces false
    pieceUsage := List.replicate numPieces false
    workersRemaining := workersRemaining
    workersStandby := []
    recoveryLaunches := 0
    downloadComplete := false }

/-- An operation trace contains no shutdown-interrupted completion
(`tg.Add()` never fails). -/
def noShutdown : DownloadWorkerOp → Prop
  | .complete _ ok => ok = true
  | _ => True

theorem ownedProcessDownloadChunk_preserves_counters (p : DownloadChunkParams)
    (w : WorkerModel) (udc : UnfinishedDownloadChunk) :
    (ownedProcessDownloadChunk p w udc).1.piecesCompleted = udc.piecesCompleted ∧
    (ownedProcessDownloadChunk p w udc).1.recoveryLaunches = udc.recoveryLaunches := by
  refine ⟨?_, ?_⟩ <;>
  · simp only [ownedProcessDownloadChunk, managedRemoveWorker]
    split
    · rfl
    · split
      · rfl
      · rfl

theorem runDownloadWorkerOps_recovery_invariant (p : DownloadChunkParams)
    (ops : List DownloadWorkerOp) (udc : UnfinishedDownloadChunk)
    (hok : ∀ op ∈ ops, noShutdown op)
    (h : udc.recoveryLaunches = if p.minPieces ≤ udc.piecesCompleted then 1 else 0) :
    (runDownloadWorkerOps p udc ops).recoveryLaunches =
      if p.minPieces ≤ (runDownloadWorkerOps p udc ops).piecesCompleted then 1 else 0 := by
  induction ops generalizing udc with
  | nil => exact h
  | cons op ops ih =>
    refine ih _ (fun o ho => hok o (List.mem_cons_of_mem _ ho)) ?_
    have hop := hok op (List.mem_cons_self _ _)
    cases op with
    | process w =>
      have hp := ownedProcessDownloadChunk_preserves_counters p w udc
      simp only [downloadWorkerOpApply, hp.1, hp.2]
      exact h
    | complete i ok =>
      have hok' : ok = true := hop
      subst hok'
      simp only [downloadWorkerOpApply, managedDownloadCompletePiece, markPieceCompleted,
        managedRemoveWorker, if_true]
      split
      · simp only
        rw [h]
        split_ifs <;> omega
      · simp only
        rw [h]
        split_ifs <;> omega
    | fail w =>
      simp only [downloadWorkerOpApply, managedDownloadFailPiece, managedUnregisterWorker,
        managedRemoveWorker]
      exact h

/-- C2: along every shutdown-free worker trace from a fresh download
chunk, the recovery task is launched exactly once — at the unique
transition where `piecesCompleted` first reaches `MinPieces` (it is
launched iff the final state has `piecesCompleted ≥ MinPieces`, and then
exactly once); and a completion arriving after that point does not launch
it again while still marking its piece completed, decrementing
`piecesRegistered`, and finalizing the worker. -/
theorem recovery_task_exactly_once (p : DownloadChunkParams) (numPieces : Nat)
    (workers : Int) (ops : List DownloadWorkerOp) (hK : 1 ≤ p.minPieces)
    (hok : ∀ op ∈ ops, noShutdown op) :
    ((runDownloadWorkerOps p (initUDC numPieces workers) ops).recoveryLaunches =
      if p.minPieces ≤ (runDownloadWorkerOps p (initUDC numPieces workers) ops).piecesCompleted
      then 1 else 0) ∧
    (∀ (udc : UnfinishedDownloadChunk) (i : Nat),
      p.minPieces ≤ udc.piecesCompleted →
      (managedDownloadCompletePiece p i true udc).piecesCompleted = udc.piecesCompleted + 1 ∧
      (managedDownloadCompletePiece p i true udc).piecesRegistered = udc.piecesRegistered - 1 ∧
      (managedDownloadCompletePiece p i true udc).workersRemaining = udc.workersRemaining - 1 ∧
      (managedDownloadCompletePiece p i true udc).recoveryLaunches = udc.recoveryLaunches) := by
  constructor
  · refine runDownloadWorkerOps_recovery_invariant p ops _ hok ?_
    simp only [initUDC]
    rw [if_neg (by omega)]
  · intro udc i hle
    simp only [managedDownloadCompletePiece, markPieceCompleted, managedRemoveWorker]
    rw [if_neg (by omega)]
    exact ⟨rfl, rfl, rfl, rfl⟩

/-- C3: each call to `ownedProcessDownloadChunk` has exactly one of three
outcomes.  (drop) If the chunk is complete (`piecesCompleted ≥ K` or the
download is complete), failed (`piecesCompleted + workersRemaining < K`),
the worker is on download cooldown, holds no piece of the chunk, or its
piece is already completed, the worker is removed (only
`workersRemaining` changes) and `nil` is returned with registration state
unchanged.  (register) Otherwise, if
`piecesRegistered + piecesCompleted < K + overdrive` and the worker's
piece slot is unclaimed, `piecesRegistered` is incremented, the slot is
claimed, and the chunk is returned.  (standby) Otherwise the worker is
appended to `workersStandby` and `nil` is returned, `workersRemaining`
unchanged.  Consequently `piecesRegistered + piecesCompleted` is never
driven above `K + overdrive`. -/
theorem ownedProcessDownloadChunk_trichotomy (p : DownloadChunkParams) (w : WorkerModel)
    (udc : UnfinishedDownloadChunk) :
    ((p.minPieces ≤ udc.piecesCompleted ∨ udc.downloadComplete = true ∨
        (udc.piecesCompleted : Int) + udc.workersRemaining < (p.minPieces : Int) ∨
        w.onDownloadCooldown = true ∨ p.staticChunkMap.lookup w.hostKey = none ∨
        udc.completedPieces.getD ((p.staticChunkMap.lookup w.hostKey).getD 0) false = true) →
      ownedProcessDownloadChunk p w udc = (managedRemoveWorker udc, false)) ∧
    (¬ (p.minPieces ≤ udc.piecesCompleted ∨ udc.downloadComplete = true ∨
        (udc.piecesCompleted : Int) + udc.workersRemaining < (p.minPieces : Int) ∨
        w.onDownloadCooldown = true ∨ p.staticChunkMap.lookup w.hostKey = none ∨
        udc.completedPieces.getD ((p.staticChunkMap.lookup w.hostKey).getD 0) false = true) →
      (udc.piecesRegistered + (udc.piecesCompleted : Int) <
          (p.minPieces : Int) + (p.staticOverdrive : Int) ∧
        udc.pieceUsage.getD ((p.staticChunkMap.lookup w.hostKey).getD 0) false = false) →
      ownedProcessDownloadChunk p w udc =
        ({ udc with
            piecesRegistered := udc.piecesRegistered + 1
            pieceUsage :=
              udc.pieceUsage.set ((p.staticChunkMap.lookup w.hostKey).getD 0) true }, true)) ∧
    (¬ (p.minPieces ≤ udc.piecesCompleted ∨ udc.downloadComplete = true ∨
        (udc.piecesCompleted : Int) + udc.workersRemaining < (p.minPieces : Int) ∨
        w.onDownloadCooldown = true ∨ p.staticChunkMap.lookup w.hostKey = none ∨
        udc.completedPieces.getD ((p.staticChunkMap.lookup w.hostKey).getD 0) false = true) →
      ¬ (udc.piecesRegistered + (udc.piecesCompleted : Int) <
          (p.minPieces : Int) + (p.staticOverdrive : Int) ∧
        udc.pieceUsage.getD ((p.staticChunkMap.lookup w.hostKey).getD 0) false = false) →
      ownedProcessDownloadChunk p w udc =
        ({ udc with workersStandby := udc.workersStandby ++ [w.hostKey] }, false)) ∧
    ((ownedProcessDownloadChunk p w udc).1.piecesRegistered +
        ((ownedProcessDownloadChunk p w udc).1.piecesCompleted : Int) ≤
      max (udc.piecesRegistered + (udc.piecesCompleted : Int))
        ((p.minPieces : Int) + (p.staticOverdrive : Int))) := by
  refine ⟨?_, ?_, ?_, ?_⟩
  · intro h
    simp only [ownedProcessDownloadChunk]
    rw [if_pos (by tauto)]
  · intro h hreg
    simp only [ownedProcessDownloadChunk]
    rw [if_neg (by tauto), if_pos hreg]
  · intro h hreg
    simp only [ownedProcessDownloadChunk]
    rw [if_neg (by tauto), if_neg hreg]
  · simp only [ownedProcessDownloadChunk, managedRemoveWorker]
    split
    · simp only
      omega
    · split
      · case isTrue hreg =>
        simp only
        omega
      · simp only
        omega

/-- Concrete demonstration parameters for the download-chunk theorems:
K = 1, overdrive 0, one host holding piece 0. -/
def udcDemoParams : DownloadChunkParams :=
  { minPieces := 1, staticOverdrive := 0, staticChunkMap := [("h", 0)] }

def udcDemoOps : List DownloadWorkerOp := [DownloadWorkerOp.complete 0 true]

/-- A concrete worker and an already-complete one-piece chunk (used to
exercise the drop outcome). -/
def workerDemo : WorkerModel := { hostKey := "h", onDownloadCooldown := false }

def udcDropDemo : UnfinishedDownloadChunk :=
  { piecesRegistered := 0
    piecesCompleted := 1
    completedPieces := [true]
    pieceUsage := [false]
    workersRemaining := 1
    workersStandby := []
    recoveryLaunches := 1
    downloadComplete := false }

/-- Witness for `ownedProcessDownloadChunk_trichotomy`: a worker hitting a
complete chunk is dropped. -/
theorem ownedProcessDownloadChunk_trichotomy_witness :
    ownedProcessDownloadChunk udcDemoParams workerDemo udcDropDemo =
      (managedRemoveWorker udcDropDemo, false) :=
  (ownedProcessDownloadChunk_trichotomy udcDemoParams workerDemo udcDropDemo).1
    (Or.inl (by decide))

/-! ### The repair-loop inner iteration (uploadheap.go managedRepairLoop) -/

/-- The health threshold literal `0.8` of `managedRepairLoop` (written
with `mkRat` so comparisons are kernel-computable;
`repairHealthThreshold_eq_div` shows it equals `8/10`). -/
def repairHealthThreshold : ℚ := mkRat 8 10

theorem repairHealthThreshold_eq_div : repairHealthThreshold = (8 : ℚ) / 10 := by
  unfold repairHealthThreshold
  rw [Rat.mkRat_eq_div]
  norm_num

/-- The observable effects of one repair-loop iteration, in program
order. -/
inductive RepairEvent where
  | poppedChunk (id : UploadChunkID)
  | stampedRecentRepairTime
  | markedStuck
  | requestedMemory
  | dispatched
  deriving DecidableEq

/-- The body of one iteration of `Renter.managedRepairLoop` after a
successful pop (uploadheap.go lines 472-509), as the ordered list of its
observable effects.  `health` is the file's `CachedHealth()` (float64,
modelled as `ℚ`; exact for the values used below), `availableWorkers` is
`len(r.workerPool)`.  The source calls `UpdateRecentRepairTime` exactly
in the `health < 0.8` branch; memory is requested only afterwards (in
`managedPrepareNextChunk`), and the chunk's memory is released later
still, by the dispatched workers, so a stamp always precedes the memory
release. -/
def managedRepairLoopIteration (availableWorkers : Nat) (health : ℚ)
    (c : UnfinishedUploadChunk) : List RepairEvent :=
  [RepairEvent.poppedChunk c.id]
    ++ (if health < repairHealthThreshold then [RepairEvent.stampedRecentRepairTime] else [])
    ++ (if availableWorkers < c.minimumPieces then [RepairEvent.markedStuck]
        else [RepairEvent.requestedMemory, RepairEvent.dispatched])

/-- C4 counterexample: a popped chunk whose file's cached health is 0.9
(that is, ≥ 0.8) is never stamped — `UpdateRecentRepairTime` is called
only in the `health < 0.8` branch of `managedRepairLoop`, so in
particular it is not stamped before the chunk's memory is released. -/
theorem repairLoop_stamp_counterexample :
    RepairEvent.stampedRecentRepairTime ∉
      managedRepairLoopIteration 5 (mkRat 9 10) (mkChunk "f" 0 false 0 1) := by
  decide

/-- C4 (amended): for every chunk popped by the repair-loop inner whose
file's cached health satisfies h < 0.8, `UpdateRecentRepairTime` is
stamped immediately after the pop and before any memory is requested
(hence before the chunk's memory is released); for h ≥ 0.8 it is not
stamped at all. -/
theorem repairLoop_stamps_when_healthy (availableWorkers : Nat) (health : ℚ)
    (c : UnfinishedUploadChunk) :
    (health < (8 : ℚ) / 10 →
      managedRepairLoopIteration availableWorkers health c =
        RepairEvent.poppedChunk c.id :: RepairEvent.stampedRecentRepairTime ::
          (if availableWorkers < c.minimumPieces then [RepairEvent.markedStuck]
            else [RepairEvent.requestedMemory, RepairEvent.dispatched])) ∧
    (¬ health < (8 : ℚ) / 10 →
      RepairEvent.stampedRecentRepairTime ∉
        managedRepairLoopIteration availableWorkers health c) := by
  constructor
  · intro h
    rw [← repairHealthThreshold_eq_div] at h
    unfold managedRepairLoopIteration
    rw [if_pos h]
    rfl
  · intro h
    rw [← repairHealthThreshold_eq_div] at h
    unfold managedRepairLoopIteration
    rw [if_neg h]
    split <;> simp

/-- Witness for `repairLoop_stamps_when_healthy` at cached health 0. -/
theorem repairLoop_stamps_when_healthy_witness :
    managedRepairLoopIteration 5 0 (mkChunk "f" 0 false 0 1) =
      RepairEvent.poppedChunk (mkChunk "f" 0 false 0 1).id ::
        RepairEvent.stampedRecentRepairTime ::
        (if 5 < (mkChunk "f" 0 false 0 1).minimumPieces then [RepairEvent.markedStuck]
          else [RepairEvent.requestedMemory, RepairEvent.dispatched]) :=
  (repairLoop_stamps_when_healthy 5 0 (mkChunk "f" 0 false 0 1)).1 (by norm_num)

/-! ### Building unfinished upload chunks (uploadheap.go buildUnfinishedChunks) -/

/-- Go `repairTarget` (uploadheap.go lines 23-31). -/
inductive RepairTarget where
  | targetError
  | targetStuckChunks
  | targetUnstuckChunks
  deriving DecidableEq

/-- The fields of a siafile entry read by `buildUnfinishedChunks`: UID,
chunk count, erasure-code parameters, per-chunk stuck flags
(`StuckChunkByIndex`), the piece placement (`Pieces(chunk)` =
piece-index-indexed sets of host public keys), and `HostPublicKeys()`. -/
structure FileModel where
  uid : String
  numChunks : Nat
  minPieces : Nat
  numPieces : Nat
  stuckChunks : List Bool
  pieces : List (List (List String))
  hostPublicKeys : List String
  deriving DecidableEq

/-- `MarkAllChunksAsStuck` on the file entry. -/
def markAllChunksAsStuck (f : FileModel) : FileModel :=
  { f with stuckChunks := List.replicate f.numChunks true }

/-- The fresh `unfinishedUploadChunk` literal of buildUnfinishedChunks
(uploadheap.go lines 185-219): zero pieces completed, all piece slots
free, every current host unused. -/
def initUnfinishedChunk (f : FileModel) (hosts : List String) (index : Nat) :
    UnfinishedUploadChunk :=
  { id := { fileUID := f.uid, index := index }
    stuck := f.stuckChunks.getD index false
    stuckRepair := false
    piecesCompleted := 0
    piecesNeeded := f.numPieces
    minimumPieces := f.minPieces
    pieceUsage := List.replicate f.numPieces false
    unusedHosts := hosts }

/-- One step of the piece-marking loop of `buildUnfinishedChunks`
(uploadheap.go lines 237-273) for one stored piece: look the host up in
the file's public-key table (the Go map lookup yields the zero-value key,
whose String() is empty, when absent), skip pieces whose contract is gone
or not good-for-renew, and otherwise mark the piece slot / retire the
host from `unusedHosts` exactly as the source does. -/
def markPieceStep (f : FileModel) (utility : List (String × Bool)) (pieceIndex : Nat)
    (c : UnfinishedUploadChunk) (host : String) : UnfinishedUploadChunk :=
  let pkStr := if host ∈ f.hostPublicKeys then host else ""
  match utility.lookup pkStr with
  | none => c
  | some goodForRenew =>
    if goodForRenew = false then c
    else
      let hostUnused := pkStr ∈ c.unusedHosts
      let redundantPiece := c.pieceUsage.getD pieceIndex false
      if hostUnused ∧ redundantPiece = false then
        { c with
          pieceUsage := c.pieceUsage.set pieceIndex true
          piecesCompleted := c.piecesCompleted + 1
          unusedHosts := c.unusedHosts.erase pkStr }
      else if hostUnused then
        { c with unusedHosts := c.unusedHosts.erase pkStr }
      else c

/-- The full piece-marking pass over one chunk's `Pieces(index)`. -/
def markChunkPieces (f : FileModel) (utility : List (String × Bool)) (index : Nat)
    (c : UnfinishedUploadChunk) : UnfinishedUploadChunk :=
  (f.pieces.getD index []).enum.foldl
    (fun c1 pieceSet => pieceSet.2.foldl (markPieceStep f utility pieceSet.1) c1) c

/-- Go `Renter.buildUnfinishedChunks` (uploadheap.go lines 127-293):
returns the (possibly stuck-marked) file together with the built chunk
list.  `workerPoolSize` is `len(r.workerPool)`, `utility` maps a host
public key to its contract's `GoodForRenew` flag, `numEntries` is
`len(entrys)` (one copied entry per chunk of the file), `hosts` the
usable-host set.  The `Pieces` error path (which also returns nil) is not
modelled: `pieces` is total here. -/
def buildUnfinishedChunks (workerPoolSize : Nat) (utility : List (String × Bool))
    (f : FileModel) (numEntries : Nat) (hosts : List String) (target : RepairTarget) :
    FileModel × List UnfinishedUploadChunk :=
  if numEntries = 0 then (f, [])
  else if workerPoolSize < f.minPieces then (markAllChunksAsStuck f, [])
  else
    let chunkIndexes := (List.range numEntries).filter
      (fun i => (target == RepairTarget.targetStuckChunks) == f.stuckChunks.getD i false)
    if chunkIndexes = [] then (f, [])
    else
      let newUnfinishedChunks := chunkIndexes.map (fun index =>
        markChunkPieces f utility index (initUnfinishedChunk f hosts index))
      (f, newUnfinishedChunks.filter (fun c => c.piecesCompleted < c.piecesNeeded))

/-- C7: with fewer workers than the file's `MinPieces`, all chunks of the
file are marked stuck and no chunk is built; and every chunk that
`buildUnfinishedChunks` does return is incomplete
(`piecesCompleted < piecesNeeded`), so a chunk already holding all N
pieces on distinct good hosts is never returned. -/
theorem buildUnfinishedChunks_spec (workerPoolSize : Nat) (utility : List (String × Bool))
    (f : FileModel) (numEntries : Nat) (hosts : List String) (target : RepairTarget)
    (hne : numEntries ≠ 0) :
    (workerPoolSize < f.minPieces →
      buildUnfinishedChunks workerPoolSize utility f numEntries hosts target =
        (markAllChunksAsStuck f, []) ∧
      ∀ i < f.numChunks,
        (buildUnfinishedChunks workerPoolSize utility f numEntries hosts
            target).1.stuckChunks.getD i false = true) ∧
    (∀ c ∈ (buildUnfinishedChunks workerPoolSize utility f numEntries hosts target).2,
      c.piecesCompleted < c.piecesNeeded) := by
  constructor
  · intro hw
    have heq : buildUnfinishedChunks workerPoolSize utility f numEntries hosts target =
        (markAllChunksAsStuck f, []) := by
      unfold buildUnfinishedChunks
      rw [if_neg hne, if_pos hw]
    refine ⟨heq, ?_⟩
    intro i hi
    rw [heq]
    simp only [markAllChunksAsStuck]
    rw [List.getD_eq_getElem?_getD, List.getElem?_replicate]
    rw [if_pos hi]
    rfl
  · intro c hc
    unfold buildUnfinishedChunks at hc
    split at hc
    · simp at hc
    · split at hc
      · simp at hc
      · dsimp only at hc
        split at hc
        · simp at hc
        · simp only [List.mem_filter, decide_eq_true_eq] at hc
          exact hc.2

/-- Witness for `buildUnfinishedChunks_spec`: a file needing 2 data pieces
with only 1 worker available has its chunks all marked stuck and nothing
built. -/
theorem buildUnfinishedChunks_spec_witness :
    (1 < (FileModel.mk "f" 2 2 3 [false, false] [] ["h"]).minPieces →
      buildUnfinishedChunks 1 [] (FileModel.mk "f" 2 2 3 [false, false] [] ["h"]) 2 []
          RepairTarget.targetUnstuckChunks =
        (markAllChunksAsStuck (FileModel.mk "f" 2 2 3 [false, false] [] ["h"]), []) ∧
      ∀ i < (FileModel.mk "f" 2 2 3 [false, false] [] ["h"]).numChunks,
        (buildUnfinishedChunks 1 [] (FileModel.mk "f" 2 2 3 [false, false] [] ["h"]) 2 []
            RepairTarget.targetUnstuckChunks).1.stuckChunks.getD i false = true) ∧
    (∀ c ∈ (buildUnfinishedChunks 1 [] (FileModel.mk "f" 2 2 3 [false, false] [] ["h"]) 2 []
        RepairTarget.targetUnstuckChunks).2,
      c.piecesCompleted < c.piecesNeeded) :=
  buildUnfinishedChunks_spec 1 [] (FileModel.mk "f" 2 2 3 [false, false] [] ["h"]) 2 []
    RepairTarget.targetUnstuckChunks (by decide)

/-- Witness for `recovery_task_exactly_once` on a concrete one-completion
trace. -/
theorem recovery_task_exactly_once_witness :
    ((runDownloadWorkerOps udcDemoParams (initUDC 1 1) udcDemoOps).recoveryLaunches =
      if udcDemoParams.minPieces ≤
          (runDownloadWorkerOps udcDemoParams (initUDC 1 1) udcDemoOps).piecesCompleted
      then 1 else 0) ∧
    (∀ (udc : UnfinishedDownloadChunk) (i : Nat),
      udcDemoParams.minPieces ≤ udc.piecesCompleted →
      (managedDownloadCompletePiece udcDemoParams i true udc).piecesCompleted =
        udc.piecesCompleted + 1 ∧
      (managedDownloadCompletePiece udcDemoParams i true udc).piecesRegistered =
        udc.piecesRegistered - 1 ∧
      (managedDownloadCompletePiece udcDemoParams i true udc).workersRemaining =
        udc.workersRemaining - 1 ∧
      (managedDownloadCompletePiece udcDemoParams i true udc).recoveryLaunches =
        udc.recoveryLaunches) :=
  recovery_task_exactly_once udcDemoParams 1 1 udcDemoOps (by decide)
    (by
      intro op hop
      simp only [udcDemoOps, List.mem_singleton] at hop
      subst hop
      trivial)

/-! ### The download object (download.go): completion, cancellation -/

/-- `modules.ErrDownloadCancelled`. -/
def errDownloadCancelled : String := "download cancelled"

/-- The observable state of Go's `download` object: whether
`completeChan` is closed, the recorded error, the registered
`downloadCompleteFuncs` (by id), and the trace of callbacks already
executed, each with the error value it was invoked with. -/
structure DownloadState where
  complete : Bool
  err : Option String
  completeFuncs : List Nat
  executed : List (Nat × Option String)
  deriving DecidableEq

/-- Go `download.markComplete` (download.go lines 178-202): execute the
registered `downloadCompleteFuncs` with the recorded error, clear them,
and close `completeChan`.  If the download is already complete, the
source logs `build.Critical` (not observable state in release builds)
and skips closing the channel again, but still runs the (already
cleared) callback list. -/
def markComplete (d : DownloadState) : DownloadState :=
  if d.complete = true then
    { d with
      executed := d.executed ++ d.completeFuncs.map (fun fId => (fId, d.err))
      completeFuncs := [] }
  else
    { d with
      complete := true
      executed := d.executed ++ d.completeFuncs.map (fun fId => (fId, d.err))
      completeFuncs := [] }

/-- Go `download.managedFail` (download.go lines 157-173): a download that
is already complete is left untouched (with a `Critical` log when its
error was nil); otherwise the error is recorded and the download marked
complete. -/
def managedFail (e : String) (d : DownloadState) : DownloadState :=
  if d.complete = true ∧ d.err ≠ none then d
  else if d.complete = true ∧ d.err = none then d
  else markComplete { d with err := some e }

/-- Go `download.managedCancel` (download.go lines 150-152). -/
def managedCancel (d : DownloadState) : DownloadState :=
  managedFail errDownloadCancelled d

/-- C9: cancelling an already-complete download leaves its observable
state unchanged (same recorded error, still complete, and the executed
callback trace unchanged — callbacks are not run again), and cancelling
twice has the same effect as cancelling once. -/
theorem managedCancel_complete_noop_and_idempotent :
    (∀ d : DownloadState, d.complete = true → managedCancel d = d) ∧
    (∀ d : DownloadState, managedCancel (managedCancel d) = managedCancel d) := by
  have hcomp : ∀ d : DownloadState, d.complete = true → managedCancel d = d := by
    intro d h
    unfold managedCancel managedFail
    by_cases he : d.err = none
    · rw [if_neg (by simp [he]), if_pos ⟨h, he⟩]
    · rw [if_pos ⟨h, he⟩]
  refine ⟨hcomp, ?_⟩
  intro d
  by_cases h : d.complete = true
  · rw [hcomp d h, hcomp d h]
  · apply hcomp
    unfold managedCancel managedFail
    rw [if_neg (fun hx => h hx.1), if_neg (fun hx => h hx.1)]
    unfold markComplete
    split
    · next hg => exact hg
    · rfl

/-- Witness for `managedCancel_complete_noop_and_idempotent` at a concrete
completed download. -/
theorem managedCancel_complete_noop_witness :
    managedCancel
        { complete := true, err := some errDownloadCancelled, completeFuncs := [],
          executed := [(0, some errDownloadCancelled)] } =
      { complete := true, err := some errDownloadCancelled, completeFuncs := [],
        executed := [(0, some errDownloadCancelled)] } :=
  managedCancel_complete_noop_and_idempotent.1
    { complete := true, err := some errDownloadCancelled, completeFuncs := [],
      executed := [(0, some errDownloadCancelled)] } rfl

/-! ### The download planner (download.go managedNewDownload) -/

/-- Go `Snapshot.ChunkIndexByOffset` (siafile/snapshot.go lines 76-80):
chunk index containing the offset, and the offset within that chunk. -/
def chunkIndexByOffset (chunkSize offset : Nat) : Nat × Nat :=
  (offset / chunkSize, offset % chunkSize)

/-- The length-resolution and validation sequence of `managedDownload`
(download.go lines 314-327): reject `offset == size` for non-empty
files, resolve the length-0 sentinel to the remaining file size, and
reject ranges past the end of the file. -/
def resolveDownloadLength (fileSize offset length : Nat) : Option Nat :=
  if offset = fileSize ∧ fileSize ≠ 0 then none
  else if length = 0 ∧ fileSize < offset then none
  else
    let length' := if length = 0 then fileSize - offset else length
    if fileSize < offset + length' then none else some length'

/-- The per-chunk fields of an `unfinishedDownloadChunk` computed by the
planner loop of `managedNewDownload` (download.go lines 491-557). -/
structure DownloadChunkPlan where
  index : Nat
  staticFetchOffset : Nat
  staticFetchLength : Nat
  staticWriteOffset : Nat
  deriving DecidableEq

/-- The planner loop of `managedNewDownload`: build one chunk descriptor
per index from `i` on, `count` chunks in total, threading `writeOffset`
exactly as the source does. -/
def buildDownloadChunkPlans (chunkSize minChunk maxChunk minChunkOffset maxChunkOffset : Nat) :
    Nat → Nat → Nat → List DownloadChunkPlan
  | _, _, 0 => []
  | i, writeOffset, count + 1 =>
    let fo := if i = minChunk then minChunkOffset else 0
    let fl :=
      if i = maxChunk ∧ maxChunkOffset ≠ 0 then maxChunkOffset - fo else chunkSize - fo
    { index := i, staticFetchOffset := fo, staticFetchLength := fl,
      staticWriteOffset := writeOffset } ::
      buildDownloadChunkPlans chunkSize minChunk maxChunk minChunkOffset maxChunkOffset
        (i + 1) (writeOffset + fl) count

/-- Go `Renter.managedNewDownload` (download.go lines 401-559), modelled
on its control-relevant state: validation of the requested range, the
zero-length early completion, the `[minChunk, maxChunk]` computation with
the exact-boundary decrement, and the per-chunk fetch windows.  The
`endTime` callback registered via `d.onComplete` at creation is callback
id 0.  Destination, keys and latency staggering are omitted. -/
def managedNewDownload (chunkSize numChunks fileSize offset length : Nat) :
    Option (DownloadState × List DownloadChunkPlan) :=
  if fileSize < offset + length then none
  else
    let d0 : DownloadState :=
      { complete := false, err := none, completeFuncs := [0], executed := [] }
    if length = 0 then some (markComplete d0, [])
    else
      let mc := chunkIndexByOffset chunkSize offset
      let xc := chunkIndexByOffset chunkSize (offset + length)
      let maxChunk := if 0 < xc.1 ∧ xc.2 = 0 then xc.1 - 1 else xc.1
      if mc.1 = numChunks ∨ maxChunk = numChunks then none
      else
        some (d0, buildDownloadChunkPlans chunkSize mc.1 maxChunk mc.2 xc.2
          mc.1 0 (maxChunk + 1 - mc.1))

/-- Go `Renter.Download`'s blocking select (download.go lines 253-269):
once `completeChan` is closed it returns `d.Err()`; before that it
blocks (modelled as `none`). -/
def downloadBlockingResult (d : DownloadState) : Option (Option String) :=
  if d.complete = true then some d.err else none

/-- C10: a download whose resolved length is 0 — e.g. a zero-byte file
downloaded in full, where the length-0 sentinel resolves to the remaining
size 0 — is marked complete with a nil error at creation: the `endTime`
callback has run, no chunk descriptor is built (so nothing is enqueued to
any worker), and the blocking `Download` call returns nil immediately. -/
theorem managedNewDownload_zero_length (chunkSize numChunks fileSize offset : Nat)
    (h : offset ≤ fileSize) :
    resolveDownloadLength 0 0 0 = some 0 ∧
    managedNewDownload chunkSize numChunks fileSize offset 0 =
      some ({ complete := true, err := none, completeFuncs := [],
              executed := [(0, none)] }, []) ∧
    downloadBlockingResult
        { complete := true, err := none, completeFuncs := [], executed := [(0, none)] } =
      some none := by
  refine ⟨rfl, ?_, rfl⟩
  unfold managedNewDownload
  rw [if_neg (by omega)]
  rfl

/-- Characterization of the planner loop: the built descriptors carry the
consecutive indices `i, i+1, ...` up to `maxChunk`, and each one's fetch
offset/length follow the two source `if`s. -/
theorem buildDownloadChunkPlans_spec
    (chunkSize minChunk maxChunk minChunkOffset maxChunkOffset : Nat) :
    ∀ (count i wo : Nat), i + count = maxChunk + 1 →
      ((buildDownloadChunkPlans chunkSize minChunk maxChunk minChunkOffset maxChunkOffset
          i wo count).map (fun p => p.index) = List.range' i count) ∧
      ∀ p ∈ buildDownloadChunkPlans chunkSize minChunk maxChunk minChunkOffset maxChunkOffset
          i wo count,
        p.staticFetchOffset = (if p.index = minChunk then minChunkOffset else 0) ∧
        p.staticFetchLength =
          (if p.index = maxChunk ∧ maxChunkOffset ≠ 0 then maxChunkOffset - p.staticFetchOffset
            else chunkSize - p.staticFetchOffset) := by
  intro count
  induction count with
  | zero =>
    intro i wo hcnt
    constructor
    · rfl
    · intro p hp
      simp [buildDownloadChunkPlans] at hp
  | succ count ih =>
    intro i wo hcnt
    obtain ⟨ihmap, ihmem⟩ := ih (i + 1) (wo +
      (if i = maxChunk ∧ maxChunkOffset ≠ 0
        then maxChunkOffset - (if i = minChunk then minChunkOffset else 0)
        else chunkSize - (if i = minChunk then minChunkOffset else 0))) (by omega)
    constructor
    · unfold buildDownloadChunkPlans
      rw [List.range'_succ, ← ihmap]
      rfl
    · intro p hp
      unfold buildDownloadChunkPlans at hp
      simp only [List.mem_cons] at hp
      rcases hp with hp | hp
      · subst hp
        exact ⟨rfl, rfl⟩
      · exact ihmem p hp

/-- The fetch windows built by the planner loop, for any `maxChunk` value
`mx` satisfying `mx·cs < offset+length ≤ (mx+1)·cs` (as the computed
`maxChunk` does): the indices run from `⌊offset/cs⌋` to
`⌈(offset+length)/cs⌉ − 1`, the boundary chunk is excluded on exact
multiples, each window is the intersection of the chunk span with the
requested range, and every requested byte is covered. -/
theorem downloadChunkPlans_window_spec (cs offset length mx : Nat)
    (hcs : 0 < cs) (hlen : 0 < length)
    (hmx1 : cs * mx < offset + length)
    (hmx2 : offset + length ≤ cs * (mx + 1))
    (hq1mx : offset / cs ≤ mx)
    (hend : (offset + length) % cs ≠ 0 → mx = (offset + length) / cs) :
    (buildDownloadChunkPlans cs (offset / cs) mx (offset % cs) ((offset + length) % cs)
        (offset / cs) 0 (mx + 1 - offset / cs)).map (fun p => p.index) =
      List.range' (offset / cs) ((offset + length + cs - 1) / cs - offset / cs) ∧
    ((offset + length) % cs = 0 →
      ∀ p ∈ buildDownloadChunkPlans cs (offset / cs) mx (offset % cs)
          ((offset + length) % cs) (offset / cs) 0 (mx + 1 - offset / cs),
        p.index ≠ (offset + length) / cs) ∧
    (∀ p ∈ buildDownloadChunkPlans cs (offset / cs) mx (offset % cs)
        ((offset + length) % cs) (offset / cs) 0 (mx + 1 - offset / cs),
      p.index * cs + p.staticFetchOffset = max offset (p.index * cs) ∧
      p.index * cs + p.staticFetchOffset + p.staticFetchLength =
        min (offset + length) ((p.index + 1) * cs)) ∧
    (∀ x, offset ≤ x → x < offset + length →
      ∃ p ∈ buildDownloadChunkPlans cs (offset / cs) mx (offset % cs)
          ((offset + length) % cs) (offset / cs) 0 (mx + 1 - offset / cs),
        p.index * cs + p.staticFetchOffset ≤ x ∧
        x < p.index * cs + p.staticFetchOffset + p.staticFetchLength) := by
  obtain ⟨hmap, hmem⟩ := buildDownloadChunkPlans_spec cs (offset / cs) mx (offset % cs)
    ((offset + length) % cs) (mx + 1 - offset / cs) (offset / cs) 0 (by omega)
  have hdm1 : cs * (offset / cs) + offset % cs = offset := Nat.div_add_mod offset cs
  have hdm2 : cs * ((offset + length) / cs) + (offset + length) % cs = offset + length :=
    Nat.div_add_mod (offset + length) cs
  have hr1 : offset % cs < cs := Nat.mod_lt _ hcs
  have hr2 : (offset + length) % cs < cs := Nat.mod_lt _ hcs
  -- when the range ends on a chunk boundary, the boundary chunk index is mx+1
  have hql0 : (offset + length) % cs = 0 → (offset + length) / cs = mx + 1 := by
    intro h0
    have h1 : cs * mx < cs * ((offset + length) / cs) := by omega
    have h2 : cs * ((offset + length) / cs) ≤ cs * (mx + 1) := by omega
    have l1 : mx < (offset + length) / cs := Nat.lt_of_mul_lt_mul_left h1
    have l2 : (offset + length) / cs ≤ mx + 1 := Nat.le_of_mul_le_mul_left h2 hcs
    omega
  have hceil : (offset + length + cs - 1) / cs = mx + 1 := by
    by_cases h0 : (offset + length) % cs = 0
    · have hql := hql0 h0
      have hm1 : (mx + 1) * cs = cs * (mx + 1) := Nat.mul_comm _ _
      have hm2 : cs * ((offset + length) / cs) = cs * (mx + 1) := by rw [hql]
      have hsplit : offset + length + cs - 1 = (cs - 1) + (mx + 1) * cs := by omega
      rw [hsplit, Nat.add_mul_div_right _ _ hcs, Nat.div_eq_of_lt (by omega)]
      omega
    · have hmxq := hend h0
      have hm1 : (mx + 1) * cs = cs * (mx + 1) := Nat.mul_comm _ _
      have hm2 : cs * (mx + 1) = cs * mx + cs := by ring
      have hm3 : cs * mx = cs * ((offset + length) / cs) := by rw [hmxq]
      have hsplit : offset + length + cs - 1 =
          ((offset + length) % cs - 1) + (mx + 1) * cs := by omega
      rw [hsplit, Nat.add_mul_div_right _ _ hcs, Nat.div_eq_of_lt (by omega)]
      omega
  -- each plan's index is within [offset/cs, mx]
  have hidxmem : ∀ p ∈ buildDownloadChunkPlans cs (offset / cs) mx (offset % cs)
      ((offset + length) % cs) (offset / cs) 0 (mx + 1 - offset / cs),
      offset / cs ≤ p.index ∧ p.index ≤ mx := by
    intro p hp
    have h1 : p.index ∈ List.range' (offset / cs) (mx + 1 - offset / cs) := by
      rw [← hmap]
      exact List.mem_map_of_mem _ hp
    have h2 := List.mem_range'_1.mp h1
    omega
  -- the fetch windows are the chunk-range intersections
  have hwin : ∀ p ∈ buildDownloadChunkPlans cs (offset / cs) mx (offset % cs)
      ((offset + length) % cs) (offset / cs) 0 (mx + 1 - offset / cs),
      p.index * cs + p.staticFetchOffset = max offset (p.index * cs) ∧
      p.index * cs + p.staticFetchOffset + p.staticFetchLength =
        min (offset + length) ((p.index + 1) * cs) := by
    intro p hp
    obtain ⟨hfo, hfl⟩ := hmem p hp
    obtain ⟨hb1, hb2⟩ := hidxmem p hp
    constructor
    · by_cases hpi : p.index = offset / cs
      · rw [hfo, if_pos hpi, hpi]
        have hm : offset / cs * cs = cs * (offset / cs) := Nat.mul_comm _ _
        omega
      · rw [hfo, if_neg hpi]
        have h1 : cs * (offset / cs + 1) ≤ cs * p.index :=
          Nat.mul_le_mul_left cs (by omega)
        have hm : p.index * cs = cs * p.index := Nat.mul_comm _ _
        have hm2 : cs * (offset / cs + 1) = cs * (offset / cs) + cs := by ring
        omega
    · rw [hfl, hfo]
      by_cases hmaxc : p.index = mx ∧ (offset + length) % cs ≠ 0
      · rw [if_pos hmaxc]
        obtain ⟨hpm, h0⟩ := hmaxc
        have hmxq := hend h0
        by_cases hpi : p.index = offset / cs
        · rw [if_pos hpi]
          have hq : offset / cs = (offset + length) / cs := by omega
          have e1 : cs * (offset / cs) = cs * ((offset + length) / cs) := by rw [hq]
          have hm : p.index * cs = cs * (offset / cs) := by rw [hpi]; ring
          have hm2 : (p.index + 1) * cs = cs * (offset / cs) + cs := by rw [hpi]; ring
          omega
        · rw [if_neg hpi]
          have hq : p.index = (offset + length) / cs := by omega
          have hm : p.index * cs = cs * ((offset + length) / cs) := by rw [hq]; ring
          have hm2 : (p.index + 1) * cs = cs * ((offset + length) / cs) + cs := by
            rw [hq]; ring
          omega
      · rw [if_neg hmaxc]
        have hcase : p.index < mx ∨ (p.index = mx ∧ (offset + length) % cs = 0) := by
          by_cases hx : p.index = mx
          · refine Or.inr ⟨hx, ?_⟩
            by_contra h0
            exact hmaxc ⟨hx, h0⟩
          · exact Or.inl (by omega)
        have hmp : p.index * cs = cs * p.index := Nat.mul_comm _ _
        have hmp1 : (p.index + 1) * cs = cs * p.index + cs := by ring
        rcases hcase with hlt | ⟨hpm, h0⟩
        · have h1 : cs * (p.index + 1) ≤ cs * mx := Nat.mul_le_mul_left cs (by omega)
          have hm2 : cs * (p.index + 1) = cs * p.index + cs := by ring
          by_cases hpi : p.index = offset / cs
          · rw [if_pos hpi]
            have hmq : cs * p.index = cs * (offset / cs) := by rw [hpi]
            omega
          · rw [if_neg hpi]
            omega
        · have hql := hql0 h0
          have hq2 : cs * ((offset + length) / cs) = offset + length := by omega
          have hx1 : cs * ((offset + length) / cs) = cs * (mx + 1) := by rw [hql]
          have hx2 : cs * (mx + 1) = cs * mx + cs := by ring
          have hmxp : cs * mx = cs * p.index := by rw [hpm]
          by_cases hpi : p.index = offset / cs
          · rw [if_pos hpi]
            have hmq : cs * p.index = cs * (offset / cs) := by rw [hpi]
            omega
          · rw [if_neg hpi]
            omega
  refine ⟨?_, ?_, hwin, ?_⟩
  · rw [hmap, hceil]
  · intro h0 p hp
    have hb := hidxmem p hp
    have hql := hql0 h0
    omega
  · intro x hx1 hx2
    have hdx : cs * (x / cs) + x % cs = x := Nat.div_add_mod x cs
    have hxr : x % cs < cs := Nat.mod_lt _ hcs
    have hxq1 : offset / cs ≤ x / cs := Nat.div_le_div_right hx1
    have hxmx : x / cs ≤ mx := by
      have h1 : x < cs * (mx + 1) := by omega
      have h2 : x / cs < mx + 1 := Nat.div_lt_of_lt_mul (by
        have : cs * (mx + 1) = (mx + 1) * cs := Nat.mul_comm _ _
        omega)
      omega
    have hmm : x / cs ∈ List.range' (offset / cs) (mx + 1 - offset / cs) :=
      List.mem_range'_1.mpr ⟨hxq1, by omega⟩
    rw [← hmap] at hmm
    obtain ⟨p, hp, hpidx⟩ := List.mem_map.mp hmm
    obtain ⟨hw1, hw2⟩ := hwin p hp
    refine ⟨p, hp, ?_, ?_⟩
    · have hm : p.index * cs = cs * (x / cs) := by
        rw [hpidx]
        exact Nat.mul_comm _ _
      omega
    · have hm : p.index * cs = cs * (x / cs) := by
        rw [hpidx]
        exact Nat.mul_comm _ _
      have hm2 : (p.index + 1) * cs = cs * (x / cs) + cs := by
        rw [hpidx]
        ring
      omega

/-- C8: for every download with `length > 0` and
`offset + length ≤ fileSize` on a file of `numChunks` chunks of size
`cs`, `managedNewDownload` builds chunk descriptors exactly for the
indices `⌊offset/cs⌋ … ⌈(offset+length)/cs⌉ − 1`; in particular when
`offset + length` is an exact multiple of `cs`, no descriptor with index
`(offset+length)/cs` is built (the next chunk is untouched); and the
fetchOffset/fetchLength windows partition exactly the requested byte
range: each window equals the intersection of its chunk's span with
`[offset, offset+length)` and every requested byte lies in some
window. -/
theorem managedNewDownload_chunk_range (cs numChunks fileSize offset length : Nat)
    (hcs : 0 < cs) (hlen : 0 < length) (hfit : offset + length ≤ fileSize)
    (hfs : fileSize ≤ numChunks * cs) :
    ∃ plans : List DownloadChunkPlan,
      (managedNewDownload cs numChunks fileSize offset length).map Prod.snd = some plans ∧
      plans.map (fun p => p.index) =
        List.range' (offset / cs) ((offset + length + cs - 1) / cs - offset / cs) ∧
      ((offset + length) % cs = 0 → ∀ p ∈ plans, p.index ≠ (offset + length) / cs) ∧
      (∀ p ∈ plans,
        p.index * cs + p.staticFetchOffset = max offset (p.index * cs) ∧
        p.index * cs + p.staticFetchOffset + p.staticFetchLength =
          min (offset + length) ((p.index + 1) * cs)) ∧
      (∀ x, offset ≤ x → x < offset + length → ∃ p ∈ plans,
        p.index * cs + p.staticFetchOffset ≤ x ∧
        x < p.index * cs + p.staticFetchOffset + p.staticFetchLength) := by
  have hdm1 : cs * (offset / cs) + offset % cs = offset := Nat.div_add_mod offset cs
  have hdm2 : cs * ((offset + length) / cs) + (offset + length) % cs = offset + length :=
    Nat.div_add_mod (offset + length) cs
  have hr1 : offset % cs < cs := Nat.mod_lt _ hcs
  have hr2 : (offset + length) % cs < cs := Nat.mod_lt _ hcs
  have hq12 : offset / cs ≤ (offset + length) / cs :=
    Nat.div_le_div_right (Nat.le_add_right _ _)
  suffices hsuff : ∀ mx : Nat,
      managedNewDownload cs numChunks fileSize offset length =
        some ({ complete := false, err := none, completeFuncs := [0], executed := [] },
          buildDownloadChunkPlans cs (offset / cs) mx (offset % cs) ((offset + length) % cs)
            (offset / cs) 0 (mx + 1 - offset / cs)) →
      cs * mx < offset + length → offset + length ≤ cs * (mx + 1) → offset / cs ≤ mx →
      ((offset + length) % cs ≠ 0 → mx = (offset + length) / cs) →
      ∃ plans : List DownloadChunkPlan,
        (managedNewDownload cs numChunks fileSize offset length).map Prod.snd = some plans ∧
        plans.map (fun p => p.index) =
          List.range' (offset / cs) ((offset + length + cs - 1) / cs - offset / cs) ∧
        ((offset + length) % cs = 0 → ∀ p ∈ plans, p.index ≠ (offset + length) / cs) ∧
        (∀ p ∈ plans,
          p.index * cs + p.staticFetchOffset = max offset (p.index * cs) ∧
          p.index * cs + p.staticFetchOffset + p.staticFetchLength =
            min (offset + length) ((p.index + 1) * cs)) ∧
        (∀ x, offset ≤ x → x < offset + length → ∃ p ∈ plans,
          p.index * cs + p.staticFetchOffset ≤ x ∧
          x < p.index * cs + p.staticFetchOffset + p.staticFetchLength) by
    by_cases hb : 0 < (offset + length) / cs ∧ (offset + length) % cs = 0
    · -- exact chunk boundary: maxChunk is decremented
      have hmul : cs * ((offset + length) / cs - 1) + cs * 1 = cs * ((offset + length) / cs) := by
        rw [← Nat.mul_add]
        congr 1
        omega
      have hq1lt : offset / cs < (offset + length) / cs := by
        by_cases heq : offset / cs = (offset + length) / cs
        · have hc : cs * (offset / cs) = cs * ((offset + length) / cs) := by rw [heq]
          omega
        · omega
      have hmx1 : cs * ((offset + length) / cs - 1) < offset + length := by omega
      have hmx2 : offset + length ≤ cs * ((offset + length) / cs - 1 + 1) := by
        have hm : cs * ((offset + length) / cs - 1 + 1) = cs * ((offset + length) / cs) := by
          congr 1
          omega
        omega
      have hlt : (offset + length) / cs - 1 < numChunks := by
        have h1 : cs * numChunks = numChunks * cs := Nat.mul_comm _ _
        exact Nat.lt_of_mul_lt_mul_left (a := cs) (by omega)
      have heval : managedNewDownload cs numChunks fileSize offset length =
          some ({ complete := false, err := none, completeFuncs := [0], executed := [] },
            buildDownloadChunkPlans cs (offset / cs) ((offset + length) / cs - 1)
              (offset % cs) ((offset + length) % cs) (offset / cs) 0
              ((offset + length) / cs - 1 + 1 - offset / cs)) := by
        unfold managedNewDownload
        rw [if_neg (by omega)]
        dsimp only [chunkIndexByOffset]
        rw [if_neg (by omega), if_pos hb, if_neg (by omega)]
      exact hsuff _ heval hmx1 hmx2 (by omega) (fun h0 => absurd hb.2 h0)
    · -- not on a boundary (or empty prefix): maxChunk is (offset+length)/cs
      have hb' : (offset + length) / cs = 0 ∨ (offset + length) % cs ≠ 0 := by
        by_contra hc
        push_neg at hc
        exact hb ⟨Nat.pos_of_ne_zero hc.1, hc.2⟩
      have hmx1 : cs * ((offset + length) / cs) < offset + length := by
        rcases hb' with h0 | h0
        · have hz : cs * ((offset + length) / cs) = 0 := by
            rw [h0]
            ring
          omega
        · omega
      have hmx2 : offset + length ≤ cs * ((offset + length) / cs + 1) := by
        have hm : cs * ((offset + length) / cs + 1) = cs * ((offset + length) / cs) + cs := by
          ring
        omega
      have hlt : (offset + length) / cs < numChunks := by
        have h1 : cs * numChunks = numChunks * cs := Nat.mul_comm _ _
        exact Nat.lt_of_mul_lt_mul_left (a := cs) (by omega)
      have heval : managedNewDownload cs numChunks fileSize offset length =
          some ({ complete := false, err := none, completeFuncs := [0], executed := [] },
            buildDownloadChunkPlans cs (offset / cs) ((offset + length) / cs)
              (offset % cs) ((offset + length) % cs) (offset / cs) 0
              ((offset + length) / cs + 1 - offset / cs)) := by
        unfold managedNewDownload
        rw [if_neg (by omega)]
        dsimp only [chunkIndexByOffset]
        rw [if_neg (by omega), if_neg hb, if_neg (by omega)]
      exact hsuff _ heval hmx1 hmx2 hq12 (fun _ => rfl)
  intro mx heval hmx1 hmx2 hq1mx hend
  obtain ⟨c1, c2, c3, c4⟩ :=
    downloadChunkPlans_window_spec cs offset length mx hcs hlen hmx1 hmx2 hq1mx hend
  refine ⟨_, ?_, c1, c2, c3, c4⟩
  rw [heval]
  rfl

/-- Witness for `managedNewDownload_chunk_range`: chunk size 10, a
3-chunk file of size 30, download of bytes [5, 20) — the range ends
exactly on the chunk-1/chunk-2 boundary, so chunk 2 must not be
touched. -/
theorem managedNewDownload_chunk_range_witness :
    ∃ plans : List DownloadChunkPlan,
      (managedNewDownload 10 3 30 5 15).map Prod.snd = some plans ∧
      plans.map (fun p => p.index) =
        List.range' (5 / 10) ((5 + 15 + 10 - 1) / 10 - 5 / 10) ∧
      ((5 + 15) % 10 = 0 → ∀ p ∈ plans, p.index ≠ (5 + 15) / 10) ∧
      (∀ p ∈ plans,
        p.index * 10 + p.staticFetchOffset = max 5 (p.index * 10) ∧
        p.index * 10 + p.staticFetchOffset + p.staticFetchLength =
          min (5 + 15) ((p.index + 1) * 10)) ∧
      (∀ x, 5 ≤ x → x < 5 + 15 → ∃ p ∈ plans,
        p.index * 10 + p.staticFetchOffset ≤ x ∧
        x < p.index * 10 + p.staticFetchOffset + p.staticFetchLength) :=
  managedNewDownload_chunk_range 10 3 30 5 15 (by decide) (by decide) (by decide) (by decide)

/-- Witness for `managedNewDownload_zero_length` on a zero-byte file. -/
theorem managedNewDownload_zero_length_witness :
    resolveDownloadLength 0 0 0 = some 0 ∧
    managedNewDownload 10 1 0 0 0 =
      some ({ complete := true, err := none, completeFuncs := [],
              executed := [(0, none)] }, []) ∧
    downloadBlockingResult
        { complete := true, err := none, completeFuncs := [], executed := [(0, none)] } =
      some none :=
  managedNewDownload_zero_length 10 1 0 0 (Nat.le_refl 0)

end SiaRenter
